import Mathlib

/-!
Verification of the natural-language specification of the
QP inverse-kinematics solver (`QPInverseKinematics`) and of the
`GenericContainer` buffer view of the bipedal-locomotion-framework
repository, as a shallow embedding in Lean 4.

The repository sources expose only the public header of
`QPInverseKinematics` (pimpl idiom: the implementation lives in a
translation unit that is not part of the sources) and the unit tests of
`GenericContainer`.  The definitions below are therefore modelled from
the specification document, which describes the data model, the state
machine (constructed, initialized, finalized), the task registry rules,
the per-cycle QP matrix assembly, and the last-good output semantics.
Real vectors and matrices are embedded over `ℚ`; the external QP solver
is a black-box parameter, as the spec prescribes.
-/

namespace BLF

open Matrix

/-- Modelled from the spec: a task's declared type, equality versus
inequality (component 1 of the system overview). -/
inductive TaskType where
  | equality
  | inequality
deriving DecidableEq

/-- Modelled from the spec: the error taxonomy of §7 (kinds, not concrete
types). -/
inductive ErrorKind where
  | DuplicateTaskName
  | InvalidPriority
  | PriorityTypeMismatch
  | MissingWeightSource
  | UnknownTask
  | MissingRequiredVariable
  | NotReady
  | AlreadyFinalized
  | AssemblyFailure
  | SolverFailure
deriving DecidableEq

/-- Result of a solver operation: a boolean success indicator enriched
with the error kind reported on failure. -/
inductive IKResult where
  | ok
  | error (e : ErrorKind)
deriving DecidableEq

/-- Modelled from the spec: a linear task over an `n`-dimensional decision
vector: a declared type, a residual dimension `m`, and the linear map
`(A, b)` produced at the current configuration (`A x = b` or `A x ≤ b`). -/
structure TaskData (n : ℕ) where
  m : ℕ
  type : TaskType
  A : Matrix (Fin m) (Fin n) ℚ
  b : Fin m → ℚ

/-- Modelled from the spec: the weight source associated to a task: none,
a constant vector, or a non-owning reference (an identifier) to an
externally owned `WeightProviderPort`. -/
inductive WeightSource where
  | noSource
  | constant (w : ℕ → ℚ)
  | provider (pid : ℕ)

/-- An entry of the task registry: unique name, the task, its priority and
its weight source. -/
structure TaskEntry (n : ℕ) where
  name : String
  task : TaskData n
  priority : ℕ
  weight : WeightSource

/-- Modelled from the spec: the solver `State`: the full solution vector
and a validity flag (created empty and invalid at construction). -/
structure SolverState (n : ℕ) where
  solution : Fin n → ℚ
  valid : Bool

/-- Modelled from the spec: the whole `QPInverseKinematics` object: the
lifecycle flags, the configured robot-velocity variable name, the
verbosity option, the task registry (insertion order preserved) and the
output `State`. -/
structure Solver (n : ℕ) where
  initializedFlag : Bool
  finalized : Bool
  robotVelocityVariable : Option String
  verbosity : Bool
  tasks : List (TaskEntry n)
  state : SolverState n

/-- A freshly constructed solver: empty registry, invalid output. -/
def newSolver (n : ℕ) : Solver n :=
  { initializedFlag := false
    finalized := false
    robotVelocityVariable := none
    verbosity := false
    tasks := []
    state := { solution := fun _ => 0, valid := false } }

/-- Modelled from the spec: the environment of externally owned weight
providers; a destroyed provider is a lookup miss (`none`). -/
structure Env where
  providers : ℕ → Option (ℕ → ℚ)

/-- Modelled from the spec: the abstract key-value parameter source read
by `initialize`: the mandatory `robot_velocity_variable_name` and the
optional `verbosity`. -/
structure IKParams where
  robotVelocityVariableName : Option String
  verbosityOption : Option Bool

/-- Modelled from the spec: `initialize(parameters)`: fails when the
mandatory variable-name parameter is absent, otherwise records it and the
verbosity and marks the solver initialized. -/
def initializeIK (p : IKParams) (s : Solver n) : IKResult × Solver n :=
  match p.robotVelocityVariableName with
  | none => (IKResult.error ErrorKind.MissingRequiredVariable, s)
  | some nm =>
      (IKResult.ok,
        { s with
          initializedFlag := true
          robotVelocityVariable := some nm
          verbosity := p.verbosityOption.getD false })

/-- Registry lookup by name (insertion order, first match). -/
def findTask (s : Solver n) (nm : String) : Option (TaskEntry n) :=
  s.tasks.find? (fun e => e.name == nm)

/-- Modelled from the spec: `getTaskNames()`: snapshot of registered
names in insertion order. -/
def getTaskNames (s : Solver n) : List String :=
  s.tasks.map (fun e => e.name)

/-- Whether a weight source is absent (used by the `addTask` guard: a
priority-1 task must come with a usable weight source). -/
def WeightSource.isNoSource : WeightSource → Bool
  | WeightSource.noSource => true
  | _ => false

/-- Modelled from the spec: `addTask(task, name, priority, weight)`:
fails without mutating the registry when the name is already registered,
when the priority is not 0 or 1, when an inequality-type task is given
priority 1, or when a priority-1 task has no weight source; on success
the entry is appended (insertion order preserved). The guards follow the
order in which §4.1 lists the failure conditions. -/
def addTask (s : Solver n) (t : TaskData n) (nm : String) (pr : ℕ)
    (w : WeightSource) : IKResult × Solver n :=
  if s.tasks.any (fun e => e.name == nm) then
    (IKResult.error ErrorKind.DuplicateTaskName, s)
  else if pr ≠ 0 ∧ pr ≠ 1 then
    (IKResult.error ErrorKind.InvalidPriority, s)
  else if t.type = TaskType.inequality ∧ pr = 1 then
    (IKResult.error ErrorKind.PriorityTypeMismatch, s)
  else if pr = 1 ∧ w.isNoSource then
    (IKResult.error ErrorKind.MissingWeightSource, s)
  else
    (IKResult.ok,
      { s with
        tasks := s.tasks ++ [{ name := nm, task := t, priority := pr, weight := w }] })

/-- Modelled from the spec: `setTaskWeight(name, weightOrProvider)`:
fails when the name is unknown or the named task has priority 0 (weights
apply only to soft, priority-1 tasks); on success the named entry's
weight source is replaced. -/
def setTaskWeight (s : Solver n) (nm : String) (w : WeightSource) :
    Bool × Solver n :=
  match findTask s nm with
  | none => (false, s)
  | some e =>
      if e.priority = 0 then (false, s)
      else
        (true,
          { s with
            tasks := s.tasks.map (fun t =>
              if t.name == nm then { t with weight := w } else t) })

/-- Modelled from the spec: `getTaskWeightProvider(name)`: a non-owning
reference to the provider, empty (`none`, not lockable) when the name is
unknown or the task's weight source is a constant (or absent). -/
def getTaskWeightProvider (s : Solver n) (nm : String) : Option ℕ :=
  match findTask s nm with
  | some e =>
      match e.weight with
      | WeightSource.provider pid => some pid
      | _ => none
  | none => none

/-- Modelled from the spec: `getTask(name)`: a non-owning reference to
the task, empty when the name is unknown. -/
def getTask (s : Solver n) (nm : String) : Option (TaskData n) :=
  (findTask s nm).map (fun e => e.task)

/-- Modelled from the spec: `finalize(handler)`: contract violation when
already finalized; otherwise requires the configured robot-velocity
variable to be present in the variables handler, then locks the
topology. -/
def finalize (s : Solver n) (handler : List (String × ℕ)) :
    IKResult × Solver n :=
  if s.finalized then (IKResult.error ErrorKind.AlreadyFinalized, s)
  else
    match s.robotVelocityVariable with
    | none => (IKResult.error ErrorKind.MissingRequiredVariable, s)
    | some nm =>
        if handler.any (fun v => v.1 == nm) then
          (IKResult.ok, { s with finalized := true })
        else (IKResult.error ErrorKind.MissingRequiredVariable, s)

/-- `isOutputValid()`: the last-known validity flag, without re-solving. -/
def isOutputValid (s : Solver n) : Bool :=
  s.state.valid

/-- `getOutput()`: the output `State`. -/
def getOutput (s : Solver n) : SolverState n :=
  s.state

/-- `getRawSolution()`: the full solution vector. -/
def getRawSolution (s : Solver n) : Fin n → ℚ :=
  s.state.solution

/-- Modelled from the spec: resolving a task's weight source at assembly
time: a constant vector is used as is, a provider is sampled fresh (a
destroyed provider is a lookup miss and yields `none`), an absent source
yields `none`. -/
def resolveWeight (env : Env) (e : TaskEntry n) : Option (ℕ → ℚ) :=
  match e.weight with
  | WeightSource.noSource => none
  | WeightSource.constant w => some w
  | WeightSource.provider pid => env.providers pid

/-- The weight vector used for a task, defaulting to zero when the source
does not resolve (only used to state the closed-form sums). -/
def weightOf (env : Env) (e : TaskEntry n) : ℕ → ℚ :=
  (resolveWeight env e).getD (fun _ => 0)

/-- The contribution `A_jᵀ diag(w_j) A_j` of one soft task to the Hessian
`H` of the cost. -/
def taskGram (e : TaskEntry n) (w : ℕ → ℚ) : Matrix (Fin n) (Fin n) ℚ :=
  e.task.Aᵀ * Matrix.diagonal (fun i => w i.1) * e.task.A

/-- The contribution `A_jᵀ diag(w_j) b_j` of one soft task to the linear
part of the cost (`g` accumulates its negation). -/
def taskRhs (e : TaskEntry n) (w : ℕ → ℚ) : Fin n → ℚ :=
  (e.task.Aᵀ * Matrix.diagonal (fun i => w i.1)) *ᵥ e.task.b

/-- The soft (priority-1, cost) tasks, in insertion order. -/
def softTasks (s : Solver n) : List (TaskEntry n) :=
  s.tasks.filter (fun e => e.priority == 1)

/-- The hard (priority-0, constraint) tasks, in insertion order. -/
def hardTasks (s : Solver n) : List (TaskEntry n) :=
  s.tasks.filter (fun e => e.priority == 0)

/-- The accumulated Gram matrix `Σ_j A_jᵀ diag(w_j) A_j` of the soft
tasks. -/
def gramSum (env : Env) (ts : List (TaskEntry n)) : Matrix (Fin n) (Fin n) ℚ :=
  (ts.map (fun e => taskGram e (weightOf env e))).sum

/-- The accumulated right-hand side `Σ_j A_jᵀ diag(w_j) b_j` of the soft
tasks. -/
def rhsSum (env : Env) (ts : List (TaskEntry n)) : Fin n → ℚ :=
  (ts.map (fun e => taskRhs e (weightOf env e))).sum

/-- Modelled from the spec: the per-cycle accumulation of the soft tasks
into the global cost, `H += A_jᵀ diag(w_j) A_j` and
`g += -A_jᵀ diag(w_j) b_j`; it fails (`none`) when a priority-1 task has
no usable weight source at solve time. -/
def assembleCost (env : Env) :
    List (TaskEntry n) → Option (Matrix (Fin n) (Fin n) ℚ × (Fin n → ℚ))
  | [] => some (0, 0)
  | e :: ts =>
      match resolveWeight env e, assembleCost env ts with
      | some w, some (H, g) => some (taskGram e w + H, -taskRhs e w + g)
      | _, _ => none

/-- The rows `(aᵢ, bᵢ)` of one task's linear map, in row order. -/
def taskRows (e : TaskEntry n) : List ((Fin n → ℚ) × ℚ) :=
  (List.finRange e.task.m).map (fun i => (fun j => e.task.A i j, e.task.b i))

/-- Modelled from the spec: the stacked equality block `A_eq x = b_eq`:
the rows of the equality-type hard tasks, in insertion order. -/
def eqRowsOf (s : Solver n) : List ((Fin n → ℚ) × ℚ) :=
  ((hardTasks s).filter (fun e => e.task.type == TaskType.equality)).flatMap taskRows

/-- Modelled from the spec: the stacked inequality block `A_ineq x ≤
b_ineq`: the rows of the inequality-type hard tasks, in insertion
order. -/
def ineqRowsOf (s : Solver n) : List ((Fin n → ℚ) × ℚ) :=
  ((hardTasks s).filter (fun e => e.task.type == TaskType.inequality)).flatMap taskRows

/-- Modelled from the spec: the QP handed to the external solver:
cost `½ xᵀ H x + gᵀ x`, equality rows and inequality rows. -/
structure QPProblem (n : ℕ) where
  H : Matrix (Fin n) (Fin n) ℚ
  g : Fin n → ℚ
  eqRows : List ((Fin n → ℚ) × ℚ)
  ineqRows : List ((Fin n → ℚ) × ℚ)

/-- Modelled from the spec: the Moore-Penrose pseudo-inverse through
which the spec describes the closed-form solution of the unconstrained
weighted least-squares problem, characterized by the four Penrose
identities (over `ℚ` the transpose plays the role of the conjugate
transpose). -/
def IsMoorePenrose (G P : Matrix (Fin n) (Fin n) ℚ) : Prop :=
  G * P * G = G ∧ P * G * P = P ∧ (G * P)ᵀ = G * P ∧ (P * G)ᵀ = P * G

/-- Modelled from the spec: one `advance()` cycle: contract violation
(`NotReady`) before `finalize`; otherwise assemble the cost from the soft
tasks and the constraint blocks from the hard tasks, invoke the external
QP solver (a black-box parameter `sq`), and either publish the solution
as valid or, on failure, downgrade the validity flag while retaining the
previous solution value. -/
def advance (sq : QPProblem n → Option (Fin n → ℚ)) (env : Env)
    (s : Solver n) : IKResult × Solver n :=
  if s.finalized then
    match assembleCost env (softTasks s) with
    | none =>
        (IKResult.error ErrorKind.AssemblyFailure,
          { s with state := { s.state with valid := false } })
    | some (H, g) =>
        match sq { H := H, g := g, eqRows := eqRowsOf s, ineqRows := ineqRowsOf s } with
        | none =>
            (IKResult.error ErrorKind.SolverFailure,
              { s with state := { s.state with valid := false } })
        | some x =>
            (IKResult.ok, { s with state := { solution := x, valid := true } })
  else (IKResult.error ErrorKind.NotReady, s)

/-- `getOutput` as a call on a const method: the returned value paired
with the object after the call (unchanged). -/
def getOutputCall (s : Solver n) : SolverState n × Solver n :=
  (s.state, s)

/-- `getRawSolution` as a call on a const method. -/
def getRawSolutionCall (s : Solver n) : (Fin n → ℚ) × Solver n :=
  (s.state.solution, s)

/-- `isOutputValid` as a call on a const method. -/
def isOutputValidCall (s : Solver n) : Bool × Solver n :=
  (s.state.valid, s)

/-- One step of the solver's lifecycle: some public mutating operation was
called (with arbitrary arguments, environment and external QP solver). -/
def StepRel (s sNext : Solver n) : Prop :=
  (∃ p, sNext = (initializeIK p s).2) ∨
  (∃ t nm pr w, sNext = (addTask s t nm pr w).2) ∨
  (∃ nm w, sNext = (setTaskWeight s nm w).2) ∨
  (∃ handler, sNext = (finalize s handler).2) ∨
  (∃ sq env, sNext = (advance sq env s).2)

/-- A solver state reachable from construction by public operations. -/
def Reachable (s : Solver n) : Prop :=
  Relation.ReflTransGen StepRel (newSolver n) s

lemma initializeIK_preserves (p : IKParams) (s : Solver n) :
    (initializeIK p s).2.finalized = s.finalized ∧
      (initializeIK p s).2.state = s.state := by
  cases h : p.robotVelocityVariableName <;> simp [initializeIK, h]

lemma addTask_preserves (s : Solver n) (t : TaskData n) (nm : String)
    (pr : ℕ) (w : WeightSource) :
    (addTask s t nm pr w).2.finalized = s.finalized ∧
      (addTask s t nm pr w).2.state = s.state := by
  unfold addTask
  repeat' split
  all_goals simp

lemma setTaskWeight_preserves (s : Solver n) (nm : String) (w : WeightSource) :
    (setTaskWeight s nm w).2.finalized = s.finalized ∧
      (setTaskWeight s nm w).2.state = s.state := by
  unfold setTaskWeight
  cases h : findTask s nm
  · simp only [h]
    exact ⟨trivial, trivial⟩
  · simp only [h]
    split <;> simp

lemma finalize_cases (s : Solver n) (handler : List (String × ℕ)) :
    (finalize s handler).2 = s ∨ (finalize s handler).2.finalized = true := by
  unfold finalize
  split
  · left; rfl
  · cases h : s.robotVelocityVariable
    · simp only [h]
      exact Or.inl trivial
    · simp only [h]
      split
      · right; rfl
      · left; rfl

lemma finalize_state_eq (s : Solver n) (handler : List (String × ℕ)) :
    (finalize s handler).2.state = s.state := by
  unfold finalize
  split
  · rfl
  · cases h : s.robotVelocityVariable
    · simp only [h]
    · simp only [h]
      split <;> rfl

lemma advance_not_finalized (sq : QPProblem n → Option (Fin n → ℚ))
    (env : Env) (s : Solver n) (h : s.finalized = false) :
    advance sq env s = (IKResult.error ErrorKind.NotReady, s) := by
  simp [advance, h]

lemma advance_finalized_eq (sq : QPProblem n → Option (Fin n → ℚ))
    (env : Env) (s : Solver n) :
    (advance sq env s).2.finalized = s.finalized := by
  unfold advance
  split
  · split
    · rfl
    · split <;> rfl
  · rfl

lemma advance_tasks_eq (sq : QPProblem n → Option (Fin n → ℚ))
    (env : Env) (s : Solver n) :
    (advance sq env s).2.tasks = s.tasks := by
  unfold advance
  split
  · split
    · rfl
    · split <;> rfl
  · rfl

/-- Lifecycle invariant: a solver that has not been finalized has never
published a valid output: its validity flag is still `false`. -/
lemma unfinalized_invalid {s : Solver n} (hr : Reachable s) :
    s.finalized = false → s.state.valid = false := by
  induction hr with
  | refl => intro _; rfl
  | tail _ hstep ih =>
      intro hc
      rcases hstep with ⟨p, rfl⟩ | ⟨t, nm, pr, w, rfl⟩ | ⟨nm, w, rfl⟩ |
        ⟨handler, rfl⟩ | ⟨sq, env, rfl⟩
      · rw [(initializeIK_preserves p _).2]
        exact ih (by rw [← (initializeIK_preserves p _).1]; exact hc)
      · rw [(addTask_preserves _ t nm pr w).2]
        exact ih (by rw [← (addTask_preserves _ t nm pr w).1]; exact hc)
      · rw [(setTaskWeight_preserves _ nm w).2]
        exact ih (by rw [← (setTaskWeight_preserves _ nm w).1]; exact hc)
      · rcases finalize_cases _ handler with heq | hfin
        · rw [heq] at hc ⊢; exact ih hc
        · rw [hfin] at hc; exact Bool.noConfusion hc
      · rename_i b _
        cases hbf : b.finalized
        · rw [advance_not_finalized sq env b hbf] at hc ⊢
          exact ih hbf
        · rw [advance_finalized_eq sq env b, hbf] at hc
          exact Bool.noConfusion hc

/-- The per-cycle accumulation loop computes exactly the closed-form
sums: `H = Σ_j A_jᵀ diag(w_j) A_j` and `g = -Σ_j A_jᵀ diag(w_j) b_j`,
provided every weight source resolves. -/
lemma assembleCost_eq_sums (env : Env) (ts : List (TaskEntry n))
    (h : ∀ e ∈ ts, (resolveWeight env e).isSome = true) :
    assembleCost env ts = some (gramSum env ts, -rhsSum env ts) := by
  induction ts with
  | nil => simp [assembleCost, gramSum, rhsSum]
  | cons e ts ih =>
      obtain ⟨w, hw⟩ := Option.isSome_iff_exists.mp (h e (List.mem_cons_self e ts))
      have hwOf : weightOf env e = w := by rw [weightOf, hw]; rfl
      simp only [assembleCost, hw, ih (fun x hx => h x (List.mem_cons_of_mem e hx))]
      simp [gramSum, rhsSum, hwOf, neg_add, add_comm]

lemma eqRowsOf_nil {s : Solver n} (h : hardTasks s = []) : eqRowsOf s = [] := by
  simp [eqRowsOf, h]

lemma ineqRowsOf_nil {s : Solver n} (h : hardTasks s = []) : ineqRowsOf s = [] := by
  simp [ineqRowsOf, h]

/-- The Moore-Penrose pseudo-inverse of a matrix is unique: any two
matrices satisfying the four Penrose identities for `G` coincide. -/
lemma moorePenrose_unique {G P Q : Matrix (Fin n) (Fin n) ℚ}
    (hP : IsMoorePenrose G P) (hQ : IsMoorePenrose G Q) : P = Q := by
  obtain ⟨hP1, hP2, hP3, hP4⟩ := hP
  obtain ⟨hQ1, hQ2, hQ3, hQ4⟩ := hQ
  have hGt : Gᵀ = (Q * G) * Gᵀ := by
    conv_lhs => rw [← hQ1]
    rw [Matrix.mul_assoc G Q G, Matrix.transpose_mul, hQ4]
  have hGt2 : Gᵀ = Gᵀ * (G * Q) := by
    conv_lhs => rw [← hQ1]
    rw [Matrix.transpose_mul, hQ3]
  have hPG : P * G = Q * G := by
    calc P * G = (P * G)ᵀ := hP4.symm
    _ = Gᵀ * Pᵀ := Matrix.transpose_mul P G
    _ = (Q * G) * Gᵀ * Pᵀ := by rw [← hGt]
    _ = (Q * G) * (Gᵀ * Pᵀ) := by rw [Matrix.mul_assoc]
    _ = (Q * G) * (P * G)ᵀ := by rw [← Matrix.transpose_mul]
    _ = (Q * G) * (P * G) := by rw [hP4]
    _ = Q * (G * (P * G)) := by rw [Matrix.mul_assoc Q G (P * G)]
    _ = Q * (G * P * G) := by rw [← Matrix.mul_assoc G P G]
    _ = Q * G := by rw [hP1]
  have hGP : G * P = G * Q := by
    calc G * P = (G * P)ᵀ := hP3.symm
    _ = Pᵀ * Gᵀ := Matrix.transpose_mul G P
    _ = Pᵀ * (Gᵀ * (G * Q)) := by rw [← hGt2]
    _ = (Pᵀ * Gᵀ) * (G * Q) := by rw [Matrix.mul_assoc]
    _ = (G * P)ᵀ * (G * Q) := by rw [← Matrix.transpose_mul]
    _ = (G * P) * (G * Q) := by rw [hP3]
    _ = (G * P * G) * Q := by rw [← Matrix.mul_assoc (G * P) G Q]
    _ = G * Q := by rw [hP1]
  calc P = P * G * P := hP2.symm
  _ = (Q * G) * P := by rw [hPG]
  _ = Q * (G * P) := by rw [Matrix.mul_assoc]
  _ = Q * (G * Q) := by rw [hGP]
  _ = Q * G * Q := by rw [← Matrix.mul_assoc]
  _ = Q := hQ2

/-- For a nonsingular matrix the ordinary inverse satisfies the Penrose
identities, so the pseudo-inverse specializes to the matrix inverse. -/
lemma isMoorePenrose_inv {G : Matrix (Fin n) (Fin n) ℚ} (h : IsUnit G.det) :
    IsMoorePenrose G G⁻¹ := by
  refine ⟨?_, ?_, ?_, ?_⟩
  · rw [Matrix.mul_nonsing_inv _ h, Matrix.one_mul]
  · rw [Matrix.nonsing_inv_mul _ h, Matrix.one_mul]
  · rw [Matrix.mul_nonsing_inv _ h, Matrix.transpose_one]
  · rw [Matrix.nonsing_inv_mul _ h, Matrix.transpose_one]

/-- Two vectors with the same dot product against every vector are
equal. -/
lemma eq_of_forall_dotProduct_eq (v w : Fin n → ℚ)
    (h : ∀ x, v ⬝ᵥ x = w ⬝ᵥ x) : v = w := by
  funext j
  have hj := h (Pi.single j 1)
  simpa [Matrix.dotProduct_single] using hj

/-- A symmetric matrix can be moved across the dot product. -/
lemma mulVec_dotProduct_symm {G : Matrix (Fin n) (Fin n) ℚ} (hG : Gᵀ = G)
    (a b : Fin n → ℚ) : (G *ᵥ a) ⬝ᵥ b = a ⬝ᵥ (G *ᵥ b) := by
  calc (G *ᵥ a) ⬝ᵥ b = b ⬝ᵥ (G *ᵥ a) := Matrix.dotProduct_comm _ _
  _ = (b ᵥ* G) ⬝ᵥ a := Matrix.dotProduct_mulVec b G a
  _ = (b ᵥ* Gᵀ) ⬝ᵥ a := by rw [hG]
  _ = (G *ᵥ b) ⬝ᵥ a := by rw [Matrix.vecMul_transpose]
  _ = a ⬝ᵥ (G *ᵥ b) := Matrix.dotProduct_comm _ _

/-- A transposed factor moves to the other side of the dot product. -/
lemma transpose_mulVec_dotProduct {m : ℕ} (A : Matrix (Fin m) (Fin n) ℚ)
    (v : Fin m → ℚ) (x : Fin n → ℚ) : (Aᵀ *ᵥ v) ⬝ᵥ x = v ⬝ᵥ (A *ᵥ x) := by
  rw [Matrix.mulVec_transpose, ← Matrix.dotProduct_mulVec]

/-- Pointwise weighting of a residual vector by a weight vector (the
action of `diag(w)`). -/
def wmul {m : ℕ} (w : ℕ → ℚ) (u : Fin m → ℚ) : Fin m → ℚ :=
  fun k => w k.1 * u k

lemma taskGram_mulVec (e : TaskEntry n) (w : ℕ → ℚ) (x : Fin n → ℚ) :
    taskGram e w *ᵥ x = e.task.Aᵀ *ᵥ wmul w (e.task.A *ᵥ x) := by
  have hD : (Matrix.diagonal fun i : Fin e.task.m => w i.1) *ᵥ (e.task.A *ᵥ x)
      = wmul w (e.task.A *ᵥ x) := by
    funext k
    rw [Matrix.mulVec_diagonal]
    rfl
  rw [taskGram, ← Matrix.mulVec_mulVec, ← Matrix.mulVec_mulVec, hD]

lemma taskRhs_eq (e : TaskEntry n) (w : ℕ → ℚ) :
    taskRhs e w = e.task.Aᵀ *ᵥ wmul w e.task.b := by
  have hD : (Matrix.diagonal fun i : Fin e.task.m => w i.1) *ᵥ e.task.b
      = wmul w e.task.b := by
    funext k
    rw [Matrix.mulVec_diagonal]
    rfl
  rw [taskRhs, ← Matrix.mulVec_mulVec, hD]

lemma dotProduct_wmul_comm {m : ℕ} (w : ℕ → ℚ) (u v : Fin m → ℚ) :
    v ⬝ᵥ wmul w u = u ⬝ᵥ wmul w v := by
  simp only [Matrix.dotProduct, wmul]
  exact Finset.sum_congr rfl (fun k _ => by ring)

/-- A weighted square `u ⬝ᵥ diag(w) u` with nonnegative weights is
nonnegative. -/
lemma dotProduct_wmul_self_nonneg {m : ℕ} (w : ℕ → ℚ) (hw : ∀ i, 0 ≤ w i)
    (u : Fin m → ℚ) : 0 ≤ u ⬝ᵥ wmul w u := by
  simp only [Matrix.dotProduct, wmul]
  refine Finset.sum_nonneg (fun k _ => ?_)
  have := hw k.1
  nlinarith [sq_nonneg (u k)]

/-- A weighted square that vanishes with nonnegative weights forces the
weighted residual itself to vanish. -/
lemma wmul_eq_zero_of_dotProduct {m : ℕ} (w : ℕ → ℚ) (hw : ∀ i, 0 ≤ w i)
    (u : Fin m → ℚ) (h : u ⬝ᵥ wmul w u = 0) : wmul w u = 0 := by
  simp only [Matrix.dotProduct, wmul] at h
  have hterm : ∀ k ∈ (Finset.univ : Finset (Fin m)), 0 ≤ u k * (w k.1 * u k) := by
    intro k _
    have := hw k.1
    nlinarith [sq_nonneg (u k)]
  have hz := (Finset.sum_eq_zero_iff_of_nonneg hterm).mp h
  funext k
  have hk := hz k (Finset.mem_univ k)
  show w k.1 * u k = 0
  rcases mul_eq_zero.mp hk with h1 | h2
  · rw [h1, mul_zero]
  · exact h2

lemma list_sum_mulVec (l : List (Matrix (Fin n) (Fin n) ℚ)) (x : Fin n → ℚ) :
    l.sum *ᵥ x = (l.map (fun M => M *ᵥ x)).sum := by
  induction l with
  | nil => simp [Matrix.zero_mulVec]
  | cons M l ih => simp [Matrix.add_mulVec, ih]

lemma list_sum_dotProduct (l : List (Fin n → ℚ)) (x : Fin n → ℚ) :
    l.sum ⬝ᵥ x = (l.map (fun v => v ⬝ᵥ x)).sum := by
  induction l with
  | nil => simp
  | cons v l ih => simp [Matrix.add_dotProduct, ih]

lemma dotProduct_list_sum (x : Fin n → ℚ) (l : List (Fin n → ℚ)) :
    x ⬝ᵥ l.sum = (l.map (fun v => x ⬝ᵥ v)).sum := by
  induction l with
  | nil => simp
  | cons v l ih => simp [Matrix.dotProduct_add, ih]

lemma list_sum_transpose (l : List (Matrix (Fin n) (Fin n) ℚ)) :
    l.sumᵀ = (l.map Matrix.transpose).sum := by
  induction l with
  | nil => simp
  | cons M l ih => simp [Matrix.transpose_add, ih]

/-- Each member of a list of nonnegative rationals summing to zero is
zero. -/
lemma list_sum_eq_zero_mem {l : List ℚ} (h0 : ∀ a ∈ l, 0 ≤ a)
    (hs : l.sum = 0) : ∀ a ∈ l, a = 0 := by
  induction l with
  | nil => simp
  | cons b l ih =>
      have hb : 0 ≤ b := h0 b (List.mem_cons_self b l)
      have hl : ∀ a ∈ l, 0 ≤ a := fun a ha => h0 a (List.mem_cons_of_mem _ ha)
      have hls : 0 ≤ l.sum := List.sum_nonneg hl
      rw [List.sum_cons] at hs
      have hb0 : b = 0 := by linarith
      have hsum0 : l.sum = 0 := by linarith
      intro a ha
      rcases List.mem_cons.mp ha with rfl | ha
      · exact hb0
      · exact ih hl hsum0 a ha

lemma taskGram_symm (e : TaskEntry n) (w : ℕ → ℚ) :
    (taskGram e w)ᵀ = taskGram e w := by
  rw [taskGram, Matrix.transpose_mul, Matrix.transpose_mul,
    Matrix.transpose_transpose, Matrix.diagonal_transpose, Matrix.mul_assoc]

/-- The accumulated Gram matrix is symmetric. -/
lemma gramSum_transpose (env : Env) (ts : List (TaskEntry n)) :
    (gramSum env ts)ᵀ = gramSum env ts := by
  rw [gramSum, list_sum_transpose, List.map_map]
  congr 1
  refine List.map_congr_left (fun e _ => ?_)
  exact taskGram_symm e (weightOf env e)

/-- The dot product against a fixed vector, as a dual functional. -/
def dotLin (r : Fin n → ℚ) : Module.Dual ℚ (Fin n → ℚ) where
  toFun x := r ⬝ᵥ x
  map_add' a b := Matrix.dotProduct_add r a b
  map_smul' c a := by simp [Matrix.dotProduct_smul]

/-- A vector orthogonal to the kernel of a symmetric matrix lies in its
range (the annihilator of the kernel is the range of the dual map,
identified through the dot product). -/
lemma mulVec_mem_range_of_orth {G : Matrix (Fin n) (Fin n) ℚ} (hG : Gᵀ = G)
    {r : Fin n → ℚ} (h : ∀ x, G *ᵥ x = 0 → r ⬝ᵥ x = 0) :
    ∃ y, G *ᵥ y = r := by
  have hmem : dotLin r ∈ (LinearMap.ker G.mulVecLin).dualAnnihilator := by
    rw [Submodule.mem_dualAnnihilator]
    intro x hx
    exact h x (by simpa [Matrix.mulVecLin_apply] using hx)
  rw [← LinearMap.range_dualMap_eq_dualAnnihilator_ker] at hmem
  obtain ⟨ψ, hψ⟩ := hmem
  refine ⟨fun j => ψ (fun k => if j = k then 1 else 0), ?_⟩
  set y : Fin n → ℚ := fun j => ψ (fun k => if j = k then 1 else 0) with hy
  have hrep : ∀ u, y ⬝ᵥ u = ψ u := by
    intro u
    rw [LinearMap.pi_apply_eq_sum_univ ψ u, Matrix.dotProduct]
    refine Finset.sum_congr rfl (fun i _ => ?_)
    rw [hy, smul_eq_mul, mul_comm]
  have hkey : ∀ x, ψ (G *ᵥ x) = r ⬝ᵥ x := by
    intro x
    have hx := LinearMap.congr_fun hψ x
    simpa [LinearMap.dualMap_apply, Matrix.mulVecLin_apply, dotLin] using hx
  apply eq_of_forall_dotProduct_eq
  intro x
  calc (G *ᵥ y) ⬝ᵥ x = y ⬝ᵥ (G *ᵥ x) := mulVec_dotProduct_symm hG y x
  _ = ψ (G *ᵥ x) := hrep _
  _ = r ⬝ᵥ x := hkey x

/-- The quadratic form of a weighted task block, rewritten as a weighted
square of the mapped vector. -/
lemma quad_flip {m : ℕ} (A : Matrix (Fin m) (Fin n) ℚ) (w : ℕ → ℚ)
    (x : Fin n → ℚ) :
    x ⬝ᵥ (Aᵀ *ᵥ wmul w (A *ᵥ x)) = (A *ᵥ x) ⬝ᵥ wmul w (A *ᵥ x) := by
  rw [Matrix.dotProduct_comm, transpose_mulVec_dotProduct]
  exact Matrix.dotProduct_comm _ _

/-- With nonnegative weights, the accumulated right-hand side is
orthogonal to the kernel of the accumulated Gram matrix: a vector
annihilated by every weighted task block is also orthogonal to every
weighted target. -/
lemma rhsSum_orth_ker (env : Env) (ts : List (TaskEntry n))
    (hw : ∀ e ∈ ts, ∀ i, 0 ≤ weightOf env e i) :
    ∀ x, gramSum env ts *ᵥ x = 0 → rhsSum env ts ⬝ᵥ x = 0 := by
  intro x hx
  have hquad : x ⬝ᵥ (gramSum env ts *ᵥ x) = 0 := by
    rw [hx]
    simp
  rw [gramSum, list_sum_mulVec, List.map_map, dotProduct_list_sum,
    List.map_map] at hquad
  simp only [Function.comp_def] at hquad
  have hterms : ∀ q ∈ ts.map (fun e => x ⬝ᵥ taskGram e (weightOf env e) *ᵥ x), 0 ≤ q := by
    intro q hq
    obtain ⟨e, he, rfl⟩ := List.mem_map.mp hq
    rw [taskGram_mulVec, quad_flip]
    exact dotProduct_wmul_self_nonneg _ (hw e he) _
  have hzero : ∀ e ∈ ts, wmul (weightOf env e) (e.task.A *ᵥ x) = 0 := by
    intro e he
    have hq : x ⬝ᵥ taskGram e (weightOf env e) *ᵥ x = 0 :=
      list_sum_eq_zero_mem hterms hquad _
        (List.mem_map_of_mem (fun e => x ⬝ᵥ taskGram e (weightOf env e) *ᵥ x) he)
    rw [taskGram_mulVec, quad_flip] at hq
    exact wmul_eq_zero_of_dotProduct _ (hw e he) _ hq
  rw [rhsSum, list_sum_dotProduct, List.map_map]
  apply List.sum_eq_zero
  intro q hq
  obtain ⟨e, he, rfl⟩ := List.mem_map.mp hq
  show taskRhs e (weightOf env e) ⬝ᵥ x = 0
  rw [taskRhs_eq, transpose_mulVec_dotProduct, Matrix.dotProduct_comm,
    dotProduct_wmul_comm, hzero e he]
  simp

/-- With nonnegative weights, the accumulated right-hand side lies in the
range of the accumulated Gram matrix (the weighted least-squares normal
equations are solvable). -/
lemma rhsSum_mem_range (env : Env) (ts : List (TaskEntry n))
    (hw : ∀ e ∈ ts, ∀ i, 0 ≤ weightOf env e i) :
    ∃ y, gramSum env ts *ᵥ y = rhsSum env ts :=
  mulVec_mem_range_of_orth (gramSum_transpose env ts) (rhsSum_orth_ker env ts hw)

/-- The residual `A x - b` of a task at a candidate solution. -/
def residual (e : TaskEntry n) (x : Fin n → ℚ) : Fin e.task.m → ℚ :=
  e.task.A *ᵥ x - e.task.b

/-- The weighted squared residual `(A x - b)ᵀ diag(w) (A x - b)` of one
task. -/
def taskCost (e : TaskEntry n) (w : ℕ → ℚ) (x : Fin n → ℚ) : ℚ :=
  residual e x ⬝ᵥ wmul w (residual e x)

/-- The accumulated weighted least-squares cost of a list of soft
tasks. -/
def wlsCost (env : Env) (ts : List (TaskEntry n)) (x : Fin n → ℚ) : ℚ :=
  (ts.map (fun e => taskCost e (weightOf env e) x)).sum

lemma list_map_sum_add {α : Type} (l : List α) (f g : α → ℚ) :
    (l.map (fun a => f a + g a)).sum = (l.map f).sum + (l.map g).sum := by
  induction l with
  | nil => simp
  | cons a l ih => simp [ih]; ring

lemma list_map_sum_sub {α : Type} (l : List α) (f g : α → ℚ) :
    (l.map (fun a => f a - g a)).sum = (l.map f).sum - (l.map g).sum := by
  induction l with
  | nil => simp
  | cons a l ih => simp [ih]; ring

lemma list_map_sum_mul_left {α : Type} (l : List α) (c : ℚ) (f : α → ℚ) :
    (l.map (fun a => c * f a)).sum = c * (l.map f).sum := by
  induction l with
  | nil => simp
  | cons a l ih => simp [ih]; ring

/-- Expanding the weighted squared residual of one task around a
reference point. -/
lemma taskCost_expand (e : TaskEntry n) (w : ℕ → ℚ) (x xs : Fin n → ℚ) :
    taskCost e w x = taskCost e w xs
      + 2 * ((e.task.A *ᵥ (x - xs)) ⬝ᵥ wmul w (residual e xs))
      + (e.task.A *ᵥ (x - xs)) ⬝ᵥ wmul w (e.task.A *ᵥ (x - xs)) := by
  have hres : residual e x = residual e xs + e.task.A *ᵥ (x - xs) := by
    rw [residual, residual, Matrix.mulVec_sub]
    abel
  have hwm : ∀ (u v : Fin e.task.m → ℚ),
      wmul w (u + v) = wmul w u + wmul w v := by
    intro u v
    funext k
    show w k.1 * (u k + v k) = w k.1 * u k + w k.1 * v k
    ring
  have hcomm : residual e xs ⬝ᵥ wmul w (e.task.A *ᵥ (x - xs))
      = (e.task.A *ᵥ (x - xs)) ⬝ᵥ wmul w (residual e xs) :=
    dotProduct_wmul_comm w (e.task.A *ᵥ (x - xs)) (residual e xs)
  rw [taskCost, taskCost, hres, hwm, Matrix.dotProduct_add,
    Matrix.add_dotProduct, Matrix.add_dotProduct, hcomm]
  ring

/-- Moving a task's weighted residual against a displacement to normal
equation form. -/
lemma cross_term_eq (e : TaskEntry n) (w : ℕ → ℚ) (d xs : Fin n → ℚ) :
    (e.task.A *ᵥ d) ⬝ᵥ wmul w (residual e xs)
      = d ⬝ᵥ (taskGram e w *ᵥ xs) - d ⬝ᵥ taskRhs e w := by
  have hsplit : wmul w (residual e xs)
      = wmul w (e.task.A *ᵥ xs) - wmul w e.task.b := by
    funext k
    show w k.1 * (e.task.A *ᵥ xs - e.task.b) k
      = w k.1 * (e.task.A *ᵥ xs) k - w k.1 * e.task.b k
    have : (e.task.A *ᵥ xs - e.task.b) k = (e.task.A *ᵥ xs) k - e.task.b k := rfl
    rw [this]
    ring
  calc (e.task.A *ᵥ d) ⬝ᵥ wmul w (residual e xs)
      = wmul w (residual e xs) ⬝ᵥ (e.task.A *ᵥ d) := Matrix.dotProduct_comm _ _
  _ = (e.task.Aᵀ *ᵥ wmul w (residual e xs)) ⬝ᵥ d := by
      rw [transpose_mulVec_dotProduct]
  _ = d ⬝ᵥ (e.task.Aᵀ *ᵥ wmul w (residual e xs)) := Matrix.dotProduct_comm _ _
  _ = d ⬝ᵥ (taskGram e w *ᵥ xs - taskRhs e w) := by
      rw [hsplit, Matrix.mulVec_sub, taskGram_mulVec, taskRhs_eq]
  _ = d ⬝ᵥ (taskGram e w *ᵥ xs) - d ⬝ᵥ taskRhs e w := Matrix.dotProduct_sub _ _ _

/-- Any solution of the accumulated normal equations minimizes the
weighted least-squares cost, provided the weights are nonnegative. -/
lemma wls_minimizer (env : Env) (ts : List (TaskEntry n))
    (hw : ∀ e ∈ ts, ∀ i, 0 ≤ weightOf env e i)
    (xs : Fin n → ℚ) (hxs : gramSum env ts *ᵥ xs = rhsSum env ts)
    (x : Fin n → ℚ) : wlsCost env ts xs ≤ wlsCost env ts x := by
  have h1 : ts.map (fun e => taskCost e (weightOf env e) x)
      = ts.map (fun e => taskCost e (weightOf env e) xs
          + 2 * ((e.task.A *ᵥ (x - xs)) ⬝ᵥ wmul (weightOf env e) (residual e xs))
          + (e.task.A *ᵥ (x - xs)) ⬝ᵥ wmul (weightOf env e) (e.task.A *ᵥ (x - xs))) :=
    List.map_congr_left (fun e _ => taskCost_expand e _ x xs)
  have hexp : wlsCost env ts x = wlsCost env ts xs
      + 2 * (ts.map (fun e =>
          (e.task.A *ᵥ (x - xs)) ⬝ᵥ wmul (weightOf env e) (residual e xs))).sum
      + (ts.map (fun e =>
          (e.task.A *ᵥ (x - xs)) ⬝ᵥ wmul (weightOf env e) (e.task.A *ᵥ (x - xs)))).sum := by
    rw [wlsCost, h1, list_map_sum_add, list_map_sum_add, list_map_sum_mul_left]
    rfl
  have hcross : ts.map (fun e =>
      (e.task.A *ᵥ (x - xs)) ⬝ᵥ wmul (weightOf env e) (residual e xs))
      = ts.map (fun e =>
        (x - xs) ⬝ᵥ (taskGram e (weightOf env e) *ᵥ xs)
          - (x - xs) ⬝ᵥ taskRhs e (weightOf env e)) :=
    List.map_congr_left (fun e _ => cross_term_eq e _ (x - xs) xs)
  have hgram : (ts.map (fun e =>
      (x - xs) ⬝ᵥ (taskGram e (weightOf env e) *ᵥ xs))).sum
      = (x - xs) ⬝ᵥ (gramSum env ts *ᵥ xs) := by
    rw [gramSum, list_sum_mulVec, List.map_map, dotProduct_list_sum, List.map_map]
    simp only [Function.comp_def]
  have hrhs : (ts.map (fun e => (x - xs) ⬝ᵥ taskRhs e (weightOf env e))).sum
      = (x - xs) ⬝ᵥ rhsSum env ts := by
    rw [rhsSum, dotProduct_list_sum, List.map_map]
    simp only [Function.comp_def]
  have hmid : (ts.map (fun e =>
      (e.task.A *ᵥ (x - xs)) ⬝ᵥ wmul (weightOf env e) (residual e xs))).sum = 0 := by
    rw [hcross, list_map_sum_sub, hgram, hrhs, hxs, sub_self]
  have hquad : 0 ≤ (ts.map (fun e =>
      (e.task.A *ᵥ (x - xs)) ⬝ᵥ wmul (weightOf env e) (e.task.A *ᵥ (x - xs)))).sum := by
    refine List.sum_nonneg (fun q hq => ?_)
    obtain ⟨e, he, rfl⟩ := List.mem_map.mp hq
    exact dotProduct_wmul_self_nonneg _ (hw e he) _
  rw [hexp, hmid]
  linarith

/-- C1: for every reachable solver instance that has not been finalized,
`advance()` fails with `NotReady` and leaves the solver unchanged, and
`isOutputValid()` on the resulting instance returns `false`. -/
theorem qpik_advance_before_finalize (sq : QPProblem n → Option (Fin n → ℚ))
    (env : Env) (s : Solver n) (hr : Reachable s) (h : s.finalized = false) :
    advance sq env s = (IKResult.error ErrorKind.NotReady, s) ∧
      isOutputValid (advance sq env s).2 = false := by
  refine ⟨advance_not_finalized sq env s h, ?_⟩
  rw [advance_not_finalized sq env s h]
  exact unfinalized_invalid hr h

/-- Witness for C1: a freshly constructed one-dimensional solver. -/
theorem qpik_advance_before_finalize_witness :
    advance (fun _ => none) ⟨fun _ => none⟩ (newSolver 1) =
        (IKResult.error ErrorKind.NotReady, newSolver 1) ∧
      isOutputValid (advance (fun _ => none) ⟨fun _ => none⟩ (newSolver 1)).2 = false :=
  qpik_advance_before_finalize (fun _ => none) ⟨fun _ => none⟩ (newSolver 1)
    Relation.ReflTransGen.refl rfl

/-- C2: for a finalized solver whose registered tasks are all priority 1
(with resolvable, nonnegative weight sources, as the spec requires of
weight providers), when the black-box QP solver returns on the assembled
unconstrained problem the pseudo-inverse solution `P (Σ Aᵀ diag(w) b)`
for a matrix `P` satisfying the Penrose identities of the accumulated
Gram matrix, `advance()` succeeds and its solution is the closed form
`(Σ A_jᵀ diag(w_j) A_j)⁺ (Σ A_jᵀ diag(w_j) b_j)`: the assembled cost is
exactly the accumulated `(H, g)`, the constraint blocks are empty, the
pseudo-inverse is unique (justifying "the"), the solution satisfies the
weighted least-squares normal equations unconditionally, it minimizes
the accumulated weighted least-squares cost, and on a nonsingular Gram
matrix the pseudo-inverse is the ordinary inverse. -/
theorem qpik_priority1_closed_form (sq : QPProblem n → Option (Fin n → ℚ))
    (env : Env) (s : Solver n) (P : Matrix (Fin n) (Fin n) ℚ)
    (hfin : s.finalized = true)
    (hhard : hardTasks s = [])
    (hres : ∀ e ∈ softTasks s, (resolveWeight env e).isSome = true)
    (hw : ∀ e ∈ softTasks s, ∀ i, 0 ≤ weightOf env e i)
    (hP : IsMoorePenrose (gramSum env (softTasks s)) P)
    (hsolve :
      sq { H := gramSum env (softTasks s), g := -rhsSum env (softTasks s),
           eqRows := eqRowsOf s, ineqRows := ineqRowsOf s } =
        some (P *ᵥ rhsSum env (softTasks s))) :
    (advance sq env s).1 = IKResult.ok ∧
      assembleCost env (softTasks s) =
        some (gramSum env (softTasks s), -rhsSum env (softTasks s)) ∧
      eqRowsOf s = [] ∧ ineqRowsOf s = [] ∧
      getRawSolution (advance sq env s).2 = P *ᵥ rhsSum env (softTasks s) ∧
      (∀ Q, IsMoorePenrose (gramSum env (softTasks s)) Q → Q = P) ∧
      gramSum env (softTasks s) *ᵥ getRawSolution (advance sq env s).2 =
        rhsSum env (softTasks s) ∧
      (∀ x, wlsCost env (softTasks s) (getRawSolution (advance sq env s).2) ≤
        wlsCost env (softTasks s) x) ∧
      (IsUnit (gramSum env (softTasks s)).det →
        P = (gramSum env (softTasks s))⁻¹) := by
  have hasm := assembleCost_eq_sums env (softTasks s) hres
  have hadv : advance sq env s =
      (IKResult.ok,
        { s with state :=
            { solution := P *ᵥ rhsSum env (softTasks s), valid := true } }) := by
    simp only [advance, hfin, if_true, hasm]
    rw [hsolve]
  have hne : gramSum env (softTasks s) *ᵥ (P *ᵥ rhsSum env (softTasks s)) =
      rhsSum env (softTasks s) := by
    obtain ⟨y, hy⟩ := rhsSum_mem_range env (softTasks s) hw
    calc gramSum env (softTasks s) *ᵥ (P *ᵥ rhsSum env (softTasks s))
        = (gramSum env (softTasks s) * P) *ᵥ rhsSum env (softTasks s) :=
          Matrix.mulVec_mulVec _ _ _
    _ = (gramSum env (softTasks s) * P) *ᵥ (gramSum env (softTasks s) *ᵥ y) := by
          rw [hy]
    _ = (gramSum env (softTasks s) * P * gramSum env (softTasks s)) *ᵥ y :=
          Matrix.mulVec_mulVec _ _ _
    _ = gramSum env (softTasks s) *ᵥ y := by rw [hP.1]
    _ = rhsSum env (softTasks s) := hy
  refine ⟨by rw [hadv], hasm, eqRowsOf_nil hhard, ineqRowsOf_nil hhard,
    by rw [hadv]; rfl, fun Q hQ => moorePenrose_unique hQ hP, ?_, ?_,
    fun hU => moorePenrose_unique hP (isMoorePenrose_inv hU)⟩
  · rw [hadv]
    exact hne
  · intro x
    rw [hadv]
    exact wls_minimizer env (softTasks s) hw _ hne x

lemma findTask_none_iff {s : Solver n} {nm : String} :
    findTask s nm = none ↔ (s.tasks.any fun e => e.name == nm) = false := by
  rw [findTask, List.find?_eq_none, List.any_eq_false]

lemma findTask_some_any {s : Solver n} {nm : String}
    (h : findTask s nm ≠ none) :
    (s.tasks.any fun e => e.name == nm) = true := by
  rw [List.any_eq_true]
  obtain ⟨e, he⟩ := Option.ne_none_iff_exists'.mp h
  have he' : s.tasks.find? (fun x => x.name == nm) = some e := he
  have hp := List.find?_some he'
  exact ⟨e, List.mem_of_find?_eq_some he', by simpa using hp⟩

/-- C3: for a finalized solver whose cost assembly succeeds, a failure of
the external QP solver leaves the stored solution value exactly as it was
(no partial overwrite), downgrades the validity flag and makes `advance`
return failure; on solver success the solution is overwritten and the
flag set valid. -/
theorem qpik_advance_last_good (sq : QPProblem n → Option (Fin n → ℚ))
    (env : Env) (s : Solver n) (H : Matrix (Fin n) (Fin n) ℚ) (g : Fin n → ℚ)
    (hfin : s.finalized = true)
    (hasm : assembleCost env (softTasks s) = some (H, g)) :
    (sq { H := H, g := g, eqRows := eqRowsOf s, ineqRows := ineqRowsOf s } = none →
      advance sq env s =
          (IKResult.error ErrorKind.SolverFailure,
            { s with state := { s.state with valid := false } }) ∧
        getRawSolution (advance sq env s).2 = s.state.solution ∧
        isOutputValid (advance sq env s).2 = false) ∧
    (∀ x, sq { H := H, g := g, eqRows := eqRowsOf s, ineqRows := ineqRowsOf s } = some x →
      (advance sq env s).1 = IKResult.ok ∧
        getRawSolution (advance sq env s).2 = x ∧
        isOutputValid (advance sq env s).2 = true) := by
  constructor
  · intro hnone
    have hadv : advance sq env s =
        (IKResult.error ErrorKind.SolverFailure,
          { s with state := { s.state with valid := false } }) := by
      simp only [advance, hfin, if_true, hasm]
      rw [hnone]
    exact ⟨hadv, by rw [hadv]; rfl, by rw [hadv]; rfl⟩
  · intro x hx
    have hadv : advance sq env s =
        (IKResult.ok, { s with state := { solution := x, valid := true } }) := by
      simp only [advance, hfin, if_true, hasm]
      rw [hx]
    exact ⟨by rw [hadv], by rw [hadv]; rfl, by rw [hadv]; rfl⟩

/-- C4: `addTask` on an inequality-type task with priority 1 (fresh name)
fails with `PriorityTypeMismatch` and leaves the registry untouched; more
generally it fails without mutating the registry on a duplicate name, on
a priority outside {0, 1}, and on a priority-1 task without a weight
source. -/
theorem qpik_addTask_rejects (s : Solver n) (t : TaskData n) (nm : String)
    (pr : ℕ) (w : WeightSource) :
    (findTask s nm = none → t.type = TaskType.inequality → pr = 1 →
      addTask s t nm pr w = (IKResult.error ErrorKind.PriorityTypeMismatch, s)) ∧
    (findTask s nm ≠ none →
      addTask s t nm pr w = (IKResult.error ErrorKind.DuplicateTaskName, s)) ∧
    (pr ≠ 0 → pr ≠ 1 →
      ∃ e, addTask s t nm pr w = (IKResult.error e, s)) ∧
    (pr = 1 → w.isNoSource = true →
      ∃ e, addTask s t nm pr w = (IKResult.error e, s)) := by
  refine ⟨?_, ?_, ?_, ?_⟩
  · intro h1 h2 h3
    have hany := findTask_none_iff.mp h1
    simp [addTask, hany, h2, h3]
  · intro h
    simp [addTask, findTask_some_any h]
  · intro h0 h1
    cases hany : (s.tasks.any fun e => e.name == nm)
    · exact ⟨ErrorKind.InvalidPriority, by simp [addTask, hany, h0, h1]⟩
    · exact ⟨ErrorKind.DuplicateTaskName, by simp [addTask, hany]⟩
  · intro h1 hw
    cases hany : (s.tasks.any fun e => e.name == nm)
    · cases hty : t.type
      · exact ⟨ErrorKind.MissingWeightSource, by simp [addTask, hany, hty, h1, hw]⟩
      · exact ⟨ErrorKind.PriorityTypeMismatch, by simp [addTask, hany, hty, h1]⟩
    · exact ⟨ErrorKind.DuplicateTaskName, by simp [addTask, hany]⟩

/-- C5: `setTaskWeight` on an unregistered name returns failure and
leaves the solver (hence every registered task's weight source)
unchanged; it also fails unchanged when the named task has priority 0. -/
theorem qpik_setTaskWeight_rejects (s : Solver n) (nm : String)
    (w : WeightSource) :
    (findTask s nm = none → setTaskWeight s nm w = (false, s)) ∧
    (∀ e, findTask s nm = some e → e.priority = 0 →
      setTaskWeight s nm w = (false, s)) := by
  constructor
  · intro h
    simp [setTaskWeight, h]
  · intro e he hp
    simp [setTaskWeight, he, hp]

/-- C7: the getters are observationally pure: each call leaves the solver
unchanged, and repeating or interleaving `getOutput`, `getRawSolution`
and `isOutputValid` without an intervening `advance` returns identical
values each time. -/
theorem qpik_getters_pure (s : Solver n) :
    (getOutputCall s).2 = s ∧
      (getRawSolutionCall s).2 = s ∧
      (isOutputValidCall s).2 = s ∧
      (getOutputCall (getOutputCall s).2).1 = (getOutputCall s).1 ∧
      (getRawSolutionCall (getRawSolutionCall s).2).1 = (getRawSolutionCall s).1 ∧
      (isOutputValidCall (isOutputValidCall s).2).1 = (isOutputValidCall s).1 ∧
      (getOutputCall (getRawSolutionCall (isOutputValidCall s).2).2).1 =
        (getOutputCall s).1 ∧
      (isOutputValidCall (getOutputCall (getRawSolutionCall s).2).2).1 =
        (isOutputValidCall s).1 ∧
      getOutput s = (getOutputCall s).1 ∧
      getRawSolution s = (getOutput s).solution ∧
      isOutputValid s = (getOutput s).valid :=
  ⟨rfl, rfl, rfl, rfl, rfl, rfl, rfl, rfl, rfl, rfl, rfl⟩

/-- C8: `getTaskWeightProvider` returns an empty (unlockable) reference
both when the name is not registered and when the named task's weight
source is a constant vector rather than a provider. -/
theorem qpik_weight_provider_empty (s : Solver n) (nm : String) :
    (findTask s nm = none → getTaskWeightProvider s nm = none) ∧
    (∀ e w, findTask s nm = some e → e.weight = WeightSource.constant w →
      getTaskWeightProvider s nm = none) := by
  constructor
  · intro h
    simp [getTaskWeightProvider, h]
  · intro e w he hw
    simp [getTaskWeightProvider, he, hw]

/-- A task weighted by the all-zero vector contributes a zero block to
the Hessian. -/
lemma taskGram_zero_weight (e : TaskEntry n) : taskGram e (fun _ => 0) = 0 := by
  simp [taskGram]

/-- A task weighted by the all-zero vector contributes nothing to the
right-hand side. -/
lemma taskRhs_zero_weight (e : TaskEntry n) : taskRhs e (fun _ => 0) = 0 := by
  simp [taskRhs]

/-- Appending a task whose contributions vanish does not change the
assembled cost. -/
lemma assembleCost_append_noop (env : Env) (e : TaskEntry n) (w : ℕ → ℚ)
    (hw : resolveWeight env e = some w)
    (hG : taskGram e w = 0) (hR : taskRhs e w = 0) (ts : List (TaskEntry n)) :
    assembleCost env (ts ++ [e]) = assembleCost env ts := by
  induction ts with
  | nil => simp [assembleCost, hw, hG, hR]
  | cons a ts ih => simp only [List.cons_append, assembleCost, List.append_eq, ih]

/-- The entry appended by a successful zero-weight `addTask`. -/
def zeroWeightEntry (t : TaskData n) (nm : String) : TaskEntry n :=
  { name := nm, task := t, priority := 1,
    weight := WeightSource.constant fun _ => 0 }

/-- C6: adding a priority-1 task with a constant all-zero weight vector
succeeds, and every subsequent cycle assembles the same cost (`H`, `g`),
gets the same outcome from the QP solver, and publishes the same output
state as the solver without that task: the zero-weight task contributes
nothing. -/
theorem qpik_zero_weight_task_noop (s : Solver n) (t : TaskData n)
    (nm : String) (hfresh : findTask s nm = none)
    (hty : t.type ≠ TaskType.inequality) :
    (addTask s t nm 1 (WeightSource.constant fun _ => 0)).1 = IKResult.ok ∧
      ∀ (sq : QPProblem n → Option (Fin n → ℚ)) (env : Env),
        gramSum env
            (softTasks (addTask s t nm 1 (WeightSource.constant fun _ => 0)).2) =
          gramSum env (softTasks s) ∧
        rhsSum env
            (softTasks (addTask s t nm 1 (WeightSource.constant fun _ => 0)).2) =
          rhsSum env (softTasks s) ∧
        assembleCost env
            (softTasks (addTask s t nm 1 (WeightSource.constant fun _ => 0)).2) =
          assembleCost env (softTasks s) ∧
        (advance sq env (addTask s t nm 1 (WeightSource.constant fun _ => 0)).2).1 =
          (advance sq env s).1 ∧
        getOutput
            (advance sq env (addTask s t nm 1 (WeightSource.constant fun _ => 0)).2).2 =
          getOutput (advance sq env s).2 := by
  have hEqTy : t.type = TaskType.equality := by
    cases h : t.type
    · rfl
    · exact absurd h hty
  have hany := findTask_none_iff.mp hfresh
  have hadd : addTask s t nm 1 (WeightSource.constant fun _ => 0) =
      (IKResult.ok, { s with tasks := s.tasks ++ [zeroWeightEntry t nm] }) := by
    simp [addTask, hany, hEqTy, WeightSource.isNoSource, zeroWeightEntry]
  refine ⟨by rw [hadd], ?_⟩
  intro sq env
  set sPlus : Solver n := { s with tasks := s.tasks ++ [zeroWeightEntry t nm] } with hsPlus
  rw [hadd]
  have hsoft : softTasks sPlus = softTasks s ++ [zeroWeightEntry t nm] := by
    simp [softTasks, hsPlus, List.filter_append, zeroWeightEntry]
  have hhard : hardTasks sPlus = hardTasks s := by
    simp [hardTasks, hsPlus, List.filter_append, zeroWeightEntry]
  have hwres : resolveWeight env (zeroWeightEntry t nm) = some (fun _ => 0) := rfl
  have hwOf : weightOf env (zeroWeightEntry t nm) = fun _ => 0 := rfl
  have hGram : gramSum env (softTasks sPlus) = gramSum env (softTasks s) := by
    rw [hsoft]
    simp [gramSum, hwOf, taskGram_zero_weight]
  have hRhs : rhsSum env (softTasks sPlus) = rhsSum env (softTasks s) := by
    rw [hsoft]
    simp [rhsSum, hwOf, taskRhs_zero_weight]
  have hAsm : assembleCost env (softTasks sPlus) = assembleCost env (softTasks s) := by
    rw [hsoft]
    exact assembleCost_append_noop env (zeroWeightEntry t nm) (fun _ => 0) hwres
      (taskGram_zero_weight _) (taskRhs_zero_weight _) (softTasks s)
  have hEqRows : eqRowsOf sPlus = eqRowsOf s := by
    rw [eqRowsOf, eqRowsOf, hhard]
  have hIneqRows : ineqRowsOf sPlus = ineqRowsOf s := by
    rw [ineqRowsOf, ineqRowsOf, hhard]
  refine ⟨hGram, hRhs, hAsm, ?_⟩
  cases hf : s.finalized
  · have hfP : sPlus.finalized = false := hf
    rw [advance_not_finalized sq env s hf, advance_not_finalized sq env sPlus hfP]
    exact ⟨rfl, rfl⟩
  · have hfP : sPlus.finalized = true := hf
    cases hA : assembleCost env (softTasks s) with
    | none =>
        have h1 : advance sq env sPlus =
            (IKResult.error ErrorKind.AssemblyFailure,
              { sPlus with state := { sPlus.state with valid := false } }) := by
          simp only [advance, hfP, hf, if_true, hAsm, hA]
        have h2 : advance sq env s =
            (IKResult.error ErrorKind.AssemblyFailure,
              { s with state := { s.state with valid := false } }) := by
          simp only [advance, hf, if_true, hA]
        rw [h1, h2]
        exact ⟨rfl, rfl⟩
    | some Hg =>
        obtain ⟨H, g⟩ := Hg
        cases hx : sq { H := H, g := g, eqRows := eqRowsOf s, ineqRows := ineqRowsOf s } with
        | none =>
            have h1 : advance sq env sPlus =
                (IKResult.error ErrorKind.SolverFailure,
                  { sPlus with state := { sPlus.state with valid := false } }) := by
              simp only [advance, hfP, hf, if_true, hAsm, hA, hEqRows, hIneqRows]
              rw [hx]
            have h2 : advance sq env s =
                (IKResult.error ErrorKind.SolverFailure,
                  { s with state := { s.state with valid := false } }) := by
              simp only [advance, hf, if_true, hA]
              rw [hx]
            rw [h1, h2]
            exact ⟨rfl, rfl⟩
        | some x =>
            have h1 : advance sq env sPlus =
                (IKResult.ok, { sPlus with state := { solution := x, valid := true } }) := by
              simp only [advance, hfP, hf, if_true, hAsm, hA, hEqRows, hIneqRows]
              rw [hx]
            have h2 : advance sq env s =
                (IKResult.ok, { s with state := { solution := x, valid := true } }) := by
              simp only [advance, hf, if_true, hA]
              rw [hx]
            rw [h1, h2]
            exact ⟨rfl, rfl⟩

/-- An environment with no live weight providers. -/
def envNone : Env := ⟨fun _ => none⟩

/-- A black-box QP solver that always fails (used by witnesses). -/
def sqFail : QPProblem 1 → Option (Fin 1 → ℚ) := fun _ => none

/-- A concrete one-dimensional equality task with map `A = [1]`,
`b = [2]`. -/
def unitTask : TaskData 1 :=
  { m := 1, type := TaskType.equality, A := Matrix.of fun _ _ => 1,
    b := fun _ => 2 }

/-- A registry entry holding `unitTask` at priority 1 with constant unit
weight. -/
def unitEntry : TaskEntry 1 :=
  { name := "velocity", task := unitTask, priority := 1,
    weight := WeightSource.constant fun _ => 1 }

/-- A finalized solver with an empty registry. -/
def finSolver : Solver 1 := { newSolver 1 with finalized := true }

/-- A finalized solver holding the single priority-1 task `unitEntry`. -/
def oneTaskSolver : Solver 1 :=
  { newSolver 1 with finalized := true, tasks := [unitEntry] }

/-- A one-dimensional pseudo-inverse-respecting black-box solver (used
by the C2 witness): on a `1 × 1` Hessian it inverts a nonzero entry and
maps a zero Hessian to the zero solution. -/
def pinv1 (H : Matrix (Fin 1) (Fin 1) ℚ) : Matrix (Fin 1) (Fin 1) ℚ :=
  if H 0 0 = 0 then 0 else (H 0 0)⁻¹ • 1

/-- The unconstrained WLS minimizer as a black-box solver over a
one-dimensional decision vector. -/
def sqPinvOne : QPProblem 1 → Option (Fin 1 → ℚ) :=
  fun p => some (pinv1 p.H *ᵥ (-p.g))

/-- The identity matrix is its own pseudo-inverse. -/
lemma isMoorePenrose_one : IsMoorePenrose (1 : Matrix (Fin 1) (Fin 1) ℚ) 1 :=
  ⟨by simp, by simp, by simp, by simp⟩

/-- The Gram matrix of the single unit task is the identity. -/
lemma gramSum_oneTask : gramSum envNone (softTasks oneTaskSolver) = 1 := by
  funext i j
  fin_cases i
  fin_cases j
  simp [gramSum, softTasks, oneTaskSolver, newSolver, unitEntry, unitTask,
    taskGram, weightOf, resolveWeight, Matrix.mul_apply, Fin.sum_univ_one,
    Matrix.one_apply]

/-- The one-dimensional model solver inverts the identity Hessian. -/
lemma pinv1_one : pinv1 1 = 1 := by
  simp [pinv1]

/-- Witness for C2: the finalized one-soft-task solver, whose Gram
matrix is the `1 × 1` identity, with `P = 1`. -/
theorem qpik_priority1_closed_form_witness :
    (advance sqPinvOne envNone oneTaskSolver).1 = IKResult.ok ∧
      assembleCost envNone (softTasks oneTaskSolver) =
        some (gramSum envNone (softTasks oneTaskSolver),
          -rhsSum envNone (softTasks oneTaskSolver)) ∧
      eqRowsOf oneTaskSolver = [] ∧ ineqRowsOf oneTaskSolver = [] ∧
      getRawSolution (advance sqPinvOne envNone oneTaskSolver).2 =
        (1 : Matrix (Fin 1) (Fin 1) ℚ) *ᵥ
          rhsSum envNone (softTasks oneTaskSolver) ∧
      (∀ Q, IsMoorePenrose (gramSum envNone (softTasks oneTaskSolver)) Q →
        Q = (1 : Matrix (Fin 1) (Fin 1) ℚ)) ∧
      gramSum envNone (softTasks oneTaskSolver) *ᵥ
          getRawSolution (advance sqPinvOne envNone oneTaskSolver).2 =
        rhsSum envNone (softTasks oneTaskSolver) ∧
      (∀ x, wlsCost envNone (softTasks oneTaskSolver)
          (getRawSolution (advance sqPinvOne envNone oneTaskSolver).2) ≤
        wlsCost envNone (softTasks oneTaskSolver) x) ∧
      (IsUnit (gramSum envNone (softTasks oneTaskSolver)).det →
        (1 : Matrix (Fin 1) (Fin 1) ℚ) =
          (gramSum envNone (softTasks oneTaskSolver))⁻¹) :=
  qpik_priority1_closed_form sqPinvOne envNone oneTaskSolver 1 rfl rfl
    (by decide)
    (fun e he i => by
      have hlist : softTasks oneTaskSolver = [unitEntry] := rfl
      rw [hlist] at he
      rcases List.mem_singleton.mp he with rfl
      show (0 : ℚ) ≤ 1
      norm_num)
    (by rw [gramSum_oneTask]; exact isMoorePenrose_one)
    (by
      show some (pinv1 (gramSum envNone (softTasks oneTaskSolver)) *ᵥ
          (-(-rhsSum envNone (softTasks oneTaskSolver)))) =
        some ((1 : Matrix (Fin 1) (Fin 1) ℚ) *ᵥ
          rhsSum envNone (softTasks oneTaskSolver))
      rw [gramSum_oneTask, pinv1_one, neg_neg])

/-- Witness for C3: a failing black-box solver on a finalized solver. -/
theorem qpik_advance_last_good_witness :
    advance sqFail envNone finSolver =
        (IKResult.error ErrorKind.SolverFailure,
          { finSolver with state := { finSolver.state with valid := false } }) ∧
      getRawSolution (advance sqFail envNone finSolver).2 =
        finSolver.state.solution ∧
      isOutputValid (advance sqFail envNone finSolver).2 = false :=
  (qpik_advance_last_good sqFail envNone finSolver 0 0 rfl rfl).1 rfl

/-- Witness for C6: adding a zero-weight task to the finalized empty
solver. -/
theorem qpik_zero_weight_task_noop_witness :
    (addTask finSolver unitTask "zw" 1 (WeightSource.constant fun _ => 0)).1 =
        IKResult.ok ∧
      ∀ (sq : QPProblem 1 → Option (Fin 1 → ℚ)) (env : Env),
        gramSum env
            (softTasks (addTask finSolver unitTask "zw" 1
              (WeightSource.constant fun _ => 0)).2) =
          gramSum env (softTasks finSolver) ∧
        rhsSum env
            (softTasks (addTask finSolver unitTask "zw" 1
              (WeightSource.constant fun _ => 0)).2) =
          rhsSum env (softTasks finSolver) ∧
        assembleCost env
            (softTasks (addTask finSolver unitTask "zw" 1
              (WeightSource.constant fun _ => 0)).2) =
          assembleCost env (softTasks finSolver) ∧
        (advance sq env (addTask finSolver unitTask "zw" 1
              (WeightSource.constant fun _ => 0)).2).1 =
          (advance sq env finSolver).1 ∧
        getOutput
            (advance sq env (addTask finSolver unitTask "zw" 1
              (WeightSource.constant fun _ => 0)).2).2 =
          getOutput (advance sq env finSolver).2 :=
  qpik_zero_weight_task_noop finSolver unitTask "zw" rfl (by decide)

end BLF

namespace GenCont

/-- Modelled from the spec: `GenericContainer` (its implementation is not
among the sources; behavior follows its unit tests): a view over
externally owned storage, remembering whether the storage it was created
over is resizable (`makeResizableGenericContainer`) or fixed (created
from a span). -/
structure GenericContainer (α : Type) where
  data : List α
  resizable : Bool

/-- Modelled from the spec: a `GenericContainer` created from a
fixed-size span (`iDynTree::make_span`): not resizable. -/
def spanContainer {α : Type} (v : List α) : GenericContainer α :=
  { data := v, resizable := false }

/-- Modelled from the spec: `makeResizableGenericContainer`: a container
over resizable storage. -/
def makeResizableGenericContainer {α : Type} (v : List α) : GenericContainer α :=
  { data := v, resizable := true }

/-- `size()`: the number of elements currently viewed. -/
def GenericContainer.size {α : Type} (c : GenericContainer α) : ℕ :=
  c.data.length

/-- Resizing the underlying storage to `m` elements: existing elements
are kept, growth is default-filled. -/
def resizeList {α : Type} [Inhabited α] (l : List α) (m : ℕ) : List α :=
  l.take m ++ List.replicate (m - l.length) default

/-- Modelled from the spec: `GenericContainer::resize(m)`: succeeds and
resizes the underlying storage exactly when the container was created
over resizable storage; on a fixed-size (span-backed) container it
returns `false` and changes nothing. -/
def GenericContainer.resize {α : Type} [Inhabited α] (c : GenericContainer α)
    (m : ℕ) : Bool × GenericContainer α :=
  if c.resizable then (true, { c with data := resizeList c.data m })
  else (false, c)

/-- Modelled from the spec: `GenericContainer::operator=`: a resizable
destination is first resized to the source's size and then receives the
source elementwise; a fixed-size destination receives the source
elementwise into its existing storage. -/
def GenericContainer.assign {α : Type} [Inhabited α]
    (dst src : GenericContainer α) : GenericContainer α :=
  if dst.resizable then { dst with data := src.data }
  else
    { dst with
      data := (List.range dst.data.length).map (fun i =>
        if i < src.data.length then src.data.getD i default
        else dst.data.getD i default) }

lemma resizeList_length {α : Type} [Inhabited α] (l : List α) (m : ℕ) :
    (resizeList l m).length = m := by
  simp [resizeList]
  omega

/-- C9: copy-assignment copies the source elementwise into the
destination's underlying storage (for every index below the source size),
and a resizable destination is resized to the source's size and receives
exactly the source's contents. -/
theorem gc_assign_copies {α : Type} [Inhabited α]
    (dst src : GenericContainer α)
    (h : dst.resizable = true ∨ src.data.length ≤ dst.data.length) :
    (∀ i, i < src.data.length →
      (dst.assign src).data.getD i default = src.data.getD i default) ∧
    (dst.resizable = true →
      (dst.assign src).data = src.data ∧ (dst.assign src).size = src.size) := by
  cases hr : dst.resizable
  · have hle : src.data.length ≤ dst.data.length := by
      rcases h with h | h
      · rw [hr] at h
        exact Bool.noConfusion h
      · exact h
    constructor
    · intro i hi
      have hin : i < dst.data.length := lt_of_lt_of_le hi hle
      simp only [GenericContainer.assign, hr, Bool.false_eq_true, if_false]
      rw [List.getD_eq_getElem?_getD, List.getElem?_map, List.getElem?_range hin]
      simp [hi]
    · intro h'
      exact Bool.noConfusion h'
  · constructor
    · intro i hi
      simp [GenericContainer.assign, hr]
    · intro _
      simp [GenericContainer.assign, GenericContainer.size, hr]

/-- Witness for C9: a fixed-size three-element destination receives a
three-element source. -/
theorem gc_assign_copies_witness :
    (∀ i, i < (spanContainer [(1:ℚ), 2, 3]).data.length →
      ((spanContainer [(0:ℚ), 0, 0]).assign (spanContainer [(1:ℚ), 2, 3])).data.getD i default =
        (spanContainer [(1:ℚ), 2, 3]).data.getD i default) ∧
    ((spanContainer [(0:ℚ), 0, 0]).resizable = true →
      ((spanContainer [(0:ℚ), 0, 0]).assign (spanContainer [(1:ℚ), 2, 3])).data =
          (spanContainer [(1:ℚ), 2, 3]).data ∧
        ((spanContainer [(0:ℚ), 0, 0]).assign (spanContainer [(1:ℚ), 2, 3])).size =
          (spanContainer [(1:ℚ), 2, 3]).size) :=
  gc_assign_copies (spanContainer [(0:ℚ), 0, 0]) (spanContainer [(1:ℚ), 2, 3])
    (Or.inr (by decide))

/-- C10: `resize` succeeds exactly on containers created over resizable
storage: a resizable container's underlying size becomes the requested
one, while a span-backed container is left unchanged with a `false`
result; `makeResizableGenericContainer` creates resizable containers and
span construction creates fixed ones. -/
theorem gc_resize_iff_resizable {α : Type} [Inhabited α]
    (c : GenericContainer α) (m : ℕ) :
    ((c.resize m).1 = true ↔ c.resizable = true) ∧
    (c.resizable = true → (c.resize m).1 = true ∧ (c.resize m).2.data.length = m) ∧
    (c.resizable = false → c.resize m = (false, c)) ∧
    (∀ v : List α, (makeResizableGenericContainer v).resizable = true) ∧
    (∀ v : List α, (spanContainer v).resizable = false) := by
  cases hr : c.resizable <;>
    simp [GenericContainer.resize, hr, resizeList_length,
      makeResizableGenericContainer, spanContainer]

end GenCont
